import Mathlib

/-!
Verification of the threshold-function identification routine
(src/include/kitty/threshold_identification.hpp, function is_threshold).

The truth-table primitives, the ISOP cover generator and the lp_solve
collaborator are not part of the source under verification; they are
modelled from the spec (their doc comments say so).  The body of
is_threshold itself (unateness classification, cube-to-constraint
translation, solver invocation, polarity back-mapping, resource and
output handling) is translated line by line from the source.
-/

namespace kitty

/-- A completely specified truth table over `n` Boolean variables,
modelled semantically: the Boolean function it represents. -/
abbrev TTa (n : ℕ) : Type := (Fin n → Bool) → Bool

/-- Modelled from the spec: collaborator truth-table primitive
`cofactor0(table, i)` — the function with variable `i` fixed to 0. -/
def cofactor0 {n : ℕ} (f : TTa n) (i : Fin n) : TTa n :=
  fun x => f (Function.update x i false)

/-- Modelled from the spec: collaborator truth-table primitive
`cofactor1(table, i)` — the function with variable `i` fixed to 1. -/
def cofactor1 {n : ℕ} (f : TTa n) (i : Fin n) : TTa n :=
  fun x => f (Function.update x i true)

/-- Modelled from the spec: collaborator truth-table primitive, bitwise or. -/
def ttOr {n : ℕ} (f g : TTa n) : TTa n := fun x => f x || g x

/-- Modelled from the spec: collaborator truth-table primitive, bitwise
complement. -/
def ttNot {n : ℕ} (f : TTa n) : TTa n := fun x => !f x

/-- Modelled from the spec: collaborator truth-table primitive
`flip_inplace(table, i)`, modelled functionally — the function with the
polarity of variable `i` flipped. -/
def flip_inplace {n : ℕ} (f : TTa n) (i : Fin n) : TTa n :=
  fun x => f (Function.update x i (!x i))

/-- The unateness-classification loop of is_threshold (source lines 79-101):
iterates over the remaining variable indices, skipping don't-care variables,
flipping negative-unate variables in the working copy and recording them,
and aborting with `none` on a binate variable. -/
def classifyAux {n : ℕ} :
    TTa n → List (Fin n) → List (Fin n) → Option (TTa n × List (Fin n))
  | ttf, neg, [] => some (ttf, neg)
  | ttf, neg, i :: rest =>
    let tt1 := cofactor0 ttf i
    let tt2 := cofactor1 ttf i
    let smoothing := ttOr tt1 tt2
    if tt1 = tt2 then
      classifyAux ttf neg rest
    else if tt1 = smoothing then
      classifyAux (flip_inplace ttf i) (neg ++ [i]) rest
    else if tt2 ≠ smoothing then
      none
    else
      classifyAux ttf neg rest

/-- A product term (cube) as exposed by the external cover generator:
`mask i` is the cube's get_mask(i) (variable constrained in this cube),
`bits i` its get_bit(i) (required value when constrained). -/
structure Cube (n : ℕ) where
  mask : Fin n → Bool
  bits : Fin n → Bool
deriving DecidableEq

/-- An assignment is covered by a cube when it matches every constrained
variable. -/
def Cube.covers {n : ℕ} (c : Cube n) (x : Fin n → Bool) : Prop :=
  ∀ i : Fin n, c.mask i = true → x i = c.bits i

/-- The assignment reading variable `i` from bit `i` of `m`. -/
def assignOfNat (n m : ℕ) : Fin n → Bool := fun i => m.testBit i.val

/-- All `2 ^ n` assignments to `n` variables. -/
def allAssignments (n : ℕ) : List (Fin n → Bool) :=
  (List.range (2 ^ n)).map (assignOfNat n)

/-- Modelled from the spec: the external ISOP cover generator,
`cubes = isop(table)` — an ordered sequence of cubes covering exactly the
ON-set of the table.  It is modelled as the canonical minterm cover (one
fully constrained cube per ON-set assignment); the irredundancy of the
real generator is not needed by any claim, only exactness of the cover. -/
def isop {n : ℕ} (f : TTa n) : List (Cube n) :=
  ((allAssignments n).filter (fun x => f x)).map
    (fun x => { mask := fun _ => true, bits := x })

/-- One registered ILP constraint: the weight columns entering with
coefficient 1 (the threshold column always enters with coefficient -1),
the relation (`ge = true` for GE, `false` for LE) and the right-hand side. -/
structure LinCon (n : ℕ) where
  vars : List (Fin n)
  ge : Bool
  rhs : ℤ
deriving DecidableEq

/-- Left-hand side of a constraint evaluated on a solution vector `sol`
(weights at positions 0..n-1, threshold at position n). -/
def LinCon.lhs {n : ℕ} (c : LinCon n) (sol : List ℤ) : ℤ :=
  (c.vars.map (fun i => sol.getD i.val 0)).sum - sol.getD n 0

/-- Whether a solution vector satisfies a constraint. -/
def LinCon.satB {n : ℕ} (c : LinCon n) (sol : List ℤ) : Bool :=
  if c.ge then decide (c.rhs ≤ c.lhs sol) else decide (c.lhs sol ≤ c.rhs)

/-- ON-set cube constraint (source lines 129-147): the weight columns of the
variables with get_mask and get_bit both set, the threshold column with
coefficient -1, relation GE, right-hand side 0. -/
def onCon {n : ℕ} (c : Cube n) : LinCon n :=
  { vars := (List.finRange n).filter (fun i => c.mask i && c.bits i)
    ge := true
    rhs := 0 }

/-- OFF-set cube constraint (source lines 149-167): the weight columns of the
variables with get_mask clear, or get_mask and get_bit both set; the
threshold column with coefficient -1, relation LE, right-hand side -1. -/
def offCon {n : ℕ} (c : Cube n) : LinCon n :=
  { vars := (List.finRange n).filter (fun i => !c.mask i || (c.mask i && c.bits i))
    ge := false
    rhs := -1 }

/-- The full registered constraint sequence: one ON constraint per ON-set
cube, then one OFF constraint per OFF-set cube (source lines 129-167). -/
def genCons {n : ℕ} (fc nf : List (Cube n)) : List (LinCon n) :=
  fc.map onCon ++ nf.map offCon

/-- One iteration of the polarity back-mapping loop (source lines 205-209):
negate the weight of variable `v` and add the new weight to the threshold
entry (position `n`). -/
def backStep (n : ℕ) (lf : List ℤ) (v : Fin n) : List ℤ :=
  let lf2 := lf.set v.val (-(lf.getD v.val 0))
  lf2.set n (lf2.getD n 0 + lf2.getD v.val 0)

/-- Polarity back-mapping loop (source lines 204-209): apply `backStep` to
each recorded negative-unate variable in order. -/
def backMap (n : ℕ) (sol : List ℤ) (neg : List (Fin n)) : List ℤ :=
  neg.foldl (backStep n) sol

/-- The number whose binary digits are the assignment (inverse of
`assignOfNat`), used to show every assignment is enumerated. -/
def encodeAssign : {n : ℕ} → (Fin n → Bool) → ℕ
  | 0, _ => 0
  | _ + 1, x => (if x 0 then 1 else 0) + 2 * encodeAssign (fun i => x i.succ)

/-- Modelled from the spec: the behaviour of the allocation and lp_solve
collaborator calls made by one invocation of is_threshold — whether each
allocation succeeds, whether each add_constraintex call (numbered from 0)
succeeds, whether set_obj_fnex succeeds, and the outcome of solve +
get_variables on the registered constraints (`none` models a status other
than OPTIMAL or SUBOPTIMAL, `some sol` a solution vector of the n+1
column values). -/
structure Env (n : ℕ) where
  mallocColnoOk : Bool
  mallocRowOk : Bool
  makeLpOk : Bool
  addConOk : ℕ → Bool
  setObjOk : Bool
  solve : List (LinCon n) → Option (List ℤ)

/-- Observable outcome of one call of is_threshold: the returned Boolean;
whether the success path wrote through a null `plf`; the caller's truth
table after the call; the contents of the caller's linear-form vector
after the call (`none` when `plf` was null); and which of the row buffer,
column buffer and LP model are still allocated when the call exits. -/
structure RunResult (n : ℕ) where
  ret : Bool
  nullDeref : Bool
  ttFinal : TTa n
  plfFinal : Option (List ℤ)
  rowLive : Bool
  colnoLive : Bool
  lpLive : Bool
deriving DecidableEq

/-- Shallow embedding of is_threshold (source lines 70-217).  `tt` is the
caller's truth table (taken by const reference; the working copy is the
first argument threaded through `classifyAux`), `plf` the caller's
linear-form pointer (`none` models the defaulted null pointer, `some v` a
pointer to a vector currently holding `v`).  The collaborator outcomes are
supplied by `env`.  Failure paths return `false` without touching `plf`;
the early returns on allocation or registration failure (source lines
117-124, 143-146, 163-166, 177-180) leave the buffers and the model
allocated, while the infeasible-solve path (lines 187-193) and the success
path (lines 211-216) free them; the success path stores the back-mapped
linear form through `plf` (line 211) with no null check. -/
def is_threshold {n : ℕ} (env : Env n) (tt : TTa n) (plf : Option (List ℤ)) :
    RunResult n :=
  match classifyAux tt [] (List.finRange n) with
  | none =>
      { ret := false, nullDeref := false, ttFinal := tt, plfFinal := plf,
        rowLive := false, colnoLive := false, lpLive := false }
  | some (ttf, neg) =>
      let fcubes := isop ttf
      let nfcubes := isop (ttNot ttf)
      if !env.makeLpOk || !env.mallocColnoOk || !env.mallocRowOk then
        { ret := false, nullDeref := false, ttFinal := tt, plfFinal := plf,
          rowLive := env.mallocRowOk, colnoLive := env.mallocColnoOk,
          lpLive := env.makeLpOk }
      else
        let cons := genCons fcubes nfcubes
        if (List.range cons.length).any (fun k => !env.addConOk k) then
          { ret := false, nullDeref := false, ttFinal := tt, plfFinal := plf,
            rowLive := true, colnoLive := true, lpLive := true }
        else if !env.setObjOk then
          { ret := false, nullDeref := false, ttFinal := tt, plfFinal := plf,
            rowLive := true, colnoLive := true, lpLive := true }
        else
          match env.solve cons with
          | none =>
              { ret := false, nullDeref := false, ttFinal := tt, plfFinal := plf,
                rowLive := false, colnoLive := false, lpLive := false }
          | some sol =>
              let lf := backMap n sol neg
              match plf with
              | none =>
                  { ret := true, nullDeref := true, ttFinal := tt,
                    plfFinal := none,
                    rowLive := true, colnoLive := true, lpLive := true }
              | some _ =>
                  { ret := true, nullDeref := false, ttFinal := tt,
                    plfFinal := some lf,
                    rowLive := false, colnoLive := false, lpLive := false }

/-- Modelled from the spec: the contract of the ILP solving collaborator
as used by is_threshold.  When solve reports OPTIMAL or SUBOPTIMAL and the
column values are read back, the extracted integer vector has one value
per column (n weights and the threshold), respects the default lp_solve
column bounds (lower bound 0), and satisfies every registered constraint
(the spec's assumption that an integral solution of the registered system
is returned). -/
def SolverOk (n : ℕ) (solver : List (LinCon n) → Option (List ℤ)) : Prop :=
  ∀ cons sol, solver cons = some sol →
    sol.length = n + 1 ∧ (∀ v ∈ sol, 0 ≤ v) ∧ ∀ c ∈ cons, c.satB sol = true

/-- A solver that proposes the fixed candidate `cand` and returns it only
after checking the collaborator contract on the registered constraints. -/
def checkedSolver (n : ℕ) (cand : List ℤ) :
    List (LinCon n) → Option (List ℤ) :=
  fun cons =>
    if cand.length = n + 1 ∧ (∀ v ∈ cand, 0 ≤ v) ∧
        (∀ c ∈ cons, c.satB cand = true) then
      some cand
    else none

/-- An environment in which every allocation and registration succeeds. -/
def idealEnv (n : ℕ) (solver : List (LinCon n) → Option (List ℤ)) : Env n :=
  { mallocColnoOk := true, mallocRowOk := true, makeLpOk := true,
    addConOk := fun _ => true, setObjOk := true, solve := solver }

/-- 2-input AND. -/
def and2 : TTa 2 := fun x => x 0 && x 1

/-- 2-input XOR. -/
def xor2 : TTa 2 := fun x => xor (x 0) (x 1)

/-- Projection on the first of two variables (independent of variable 1). -/
def proj0 : TTa 2 := fun x => x 0

/-- Environment solving the AND2 system with candidate [1, 1, 2]. -/
def envAnd : Env 2 := idealEnv 2 (checkedSolver 2 [1, 1, 2])

/-- Environment solving the proj0 system with candidate [2, 1, 2]. -/
def envProj : Env 2 := idealEnv 2 (checkedSolver 2 [2, 1, 2])

/-- Environment in which every add_constraintex call fails. -/
def envFailAdd : Env 2 :=
  { idealEnv 2 (checkedSolver 2 [1, 1, 2]) with addConOk := fun _ => false }

/-- The ON-set minterm cube of AND2 (both variables required true). -/
def cubeAnd : Cube 2 := { mask := fun _ => true, bits := assignOfNat 2 3 }

/-- An OFF-set minterm cube of AND2 (both variables required false). -/
def cubeOffAnd : Cube 2 := { mask := fun _ => true, bits := assignOfNat 2 0 }

/-- Simultaneous polarity flip of the variables listed in `ds`. -/
def flipAll {n : ℕ} (ds : List (Fin n)) (x : Fin n → Bool) : Fin n → Bool :=
  fun j => xor (x j) (decide (j ∈ ds))

/-! ### Basic list lemmas -/

theorem getD_mem_of_lt (l : List ℤ) (k : ℕ) (h : k < l.length) :
    l.getD k 0 ∈ l := by
  rw [List.getD_eq_getElem?_getD, List.getElem?_eq_getElem h]
  exact List.getElem_mem h

theorem getD_set_self (l : List ℤ) (i : ℕ) (a : ℤ) (h : i < l.length) :
    (l.set i a).getD i 0 = a := by
  simp [List.getD_eq_getElem?_getD, List.getElem?_set_self h]

theorem getD_set_ne (l : List ℤ) (i j : ℕ) (a : ℤ) (h : i ≠ j) :
    (l.set i a).getD j 0 = l.getD j 0 := by
  simp [List.getD_eq_getElem?_getD, List.getElem?_set_ne h]

theorem sum_map_filter_eq {n : ℕ} (l : List (Fin n)) (p : Fin n → Bool)
    (w : Fin n → ℤ) :
    ((l.filter p).map w).sum = (l.map (fun i => if p i then w i else 0)).sum := by
  induction l with
  | nil => rfl
  | cons a l ih => by_cases h : p a <;> simp [List.filter_cons, h, ih]

theorem sum_filter_finRange {n : ℕ} (p : Fin n → Bool) (w : Fin n → ℤ) :
    (((List.finRange n).filter p).map w).sum
      = ∑ i ∈ Finset.univ.filter (fun i => p i = true), w i := by
  rw [sum_map_filter_eq, Finset.sum_filter, Fin.sum_univ_def]

/-! ### Assignment enumeration and the modelled cover generator -/

theorem encodeAssign_lt : ∀ {n : ℕ} (x : Fin n → Bool), encodeAssign x < 2 ^ n
  | 0, _ => by simp [encodeAssign]
  | n + 1, x => by
    have ih := encodeAssign_lt (fun i => x i.succ)
    have h2 : 2 ^ (n + 1) = 2 * 2 ^ n := by ring
    simp only [encodeAssign]
    by_cases h : x 0 <;> simp [h] <;> omega

theorem testBit_encodeAssign :
    ∀ {n : ℕ} (x : Fin n → Bool) (i : Fin n),
      (encodeAssign x).testBit i.val = x i
  | 0, _, i => absurd i.isLt (by omega)
  | n + 1, x, i => by
    induction i using Fin.cases with
    | zero =>
      simp only [encodeAssign, Fin.val_zero, Nat.testBit_zero]
      by_cases h : x 0 <;> simp [h, Nat.add_mul_mod_self_left]
    | succ j =>
      have ih := testBit_encodeAssign (fun i => x i.succ) j
      simp only [encodeAssign, Fin.val_succ, Nat.testBit_add_one]
      have hdiv :
          ((if x 0 then 1 else 0) + 2 * encodeAssign (fun i => x i.succ)) / 2
            = encodeAssign (fun i => x i.succ) := by
        by_cases h : x 0
        · simp [h]
          omega
        · simp [h]
      rw [hdiv, ih]

theorem mem_allAssignments {n : ℕ} (x : Fin n → Bool) :
    x ∈ allAssignments n := by
  refine List.mem_map.mpr ⟨encodeAssign x, ?_, ?_⟩
  · exact List.mem_range.mpr (encodeAssign_lt x)
  · funext i
    exact testBit_encodeAssign x i

theorem isop_complete {n : ℕ} (f : TTa n) (x : Fin n → Bool)
    (hx : f x = true) : ∃ c ∈ isop f, c.covers x := by
  refine ⟨{ mask := fun _ => true, bits := x }, ?_, ?_⟩
  · exact List.mem_map_of_mem _
      (List.mem_filter.mpr ⟨mem_allAssignments x, hx⟩)
  · intro i _
    rfl

theorem isop_covers_sound {n : ℕ} (f : TTa n) (c : Cube n) (x : Fin n → Bool)
    (hc : c ∈ isop f) (hcov : c.covers x) : f x = true := by
  obtain ⟨b, hb, hcb⟩ := List.mem_map.mp hc
  have hfb : f b = true := (List.mem_filter.mp hb).2
  have hxb : x = b := by
    funext i
    have := hcov i (by rw [← hcb])
    rw [this, ← hcb]
  rw [hxb]
  exact hfb

/-! ### Properties of the unateness classification loop -/

theorem flipAll_flipAll {n : ℕ} (ds : List (Fin n)) (x : Fin n → Bool) :
    flipAll ds (flipAll ds x) = x := by
  funext j
  cases hd : decide (j ∈ ds) <;> simp [flipAll, hd]

theorem classifyAux_append {n : ℕ} (l1 l2 : List (Fin n)) :
    ∀ (t : TTa n) (acc : List (Fin n)),
      classifyAux t acc (l1 ++ l2) =
        match classifyAux t acc l1 with
        | none => none
        | some (g, a) => classifyAux g a l2 := by
  induction l1 with
  | nil => intro t acc; rfl
  | cons i l1 ih =>
    intro t acc
    show classifyAux t acc (i :: (l1 ++ l2)) = _
    simp only [classifyAux]
    split_ifs with h1 h2 h3 <;> simp [ih]

theorem classifyAux_spec {n : ℕ} :
    ∀ (rest : List (Fin n)) (t : TTa n) (acc : List (Fin n))
      (g : TTa n) (neg : List (Fin n)),
      rest.Nodup →
      classifyAux t acc rest = some (g, neg) →
      ∃ ds, neg = acc ++ ds ∧ ds.Sublist rest ∧
        ∀ x, g x = t (flipAll ds x) := by
  intro rest
  induction rest with
  | nil =>
    intro t acc g neg _ h
    simp only [classifyAux, Option.some.injEq, Prod.mk.injEq] at h
    obtain ⟨hg, hacc⟩ := h
    subst hg
    subst hacc
    refine ⟨[], by simp, List.Sublist.refl _, ?_⟩
    intro x
    congr 1
    funext j
    simp [flipAll]
  | cons i rest ih =>
    intro t acc g neg hnd h
    have hni : i ∉ rest := (List.nodup_cons.mp hnd).1
    have hnd' : rest.Nodup := (List.nodup_cons.mp hnd).2
    simp only [classifyAux] at h
    split_ifs at h with h1 h2 h3
    · obtain ⟨ds, ha, hs, hg⟩ := ih t acc g neg hnd' h
      exact ⟨ds, ha, hs.cons i, hg⟩
    · obtain ⟨ds, ha, hs, hg⟩ := ih (flip_inplace t i) (acc ++ [i]) g neg hnd' h
      have hids : i ∉ ds := fun hmem => hni (hs.subset hmem)
      refine ⟨i :: ds, by simp [ha], hs.cons₂ i, ?_⟩
      intro x
      rw [hg x]
      show t (Function.update (flipAll ds x) i (!flipAll ds x i)) = t (flipAll (i :: ds) x)
      congr 1
      funext j
      by_cases hj : j = i
      · subst hj
        simp [flipAll, hids, Function.update_same]
      · rw [Function.update_noteq hj]
        simp [flipAll, List.mem_cons, hj]
    · obtain ⟨ds, ha, hs, hg⟩ := ih t acc g neg hnd' h
      exact ⟨ds, ha, hs.cons i, hg⟩

theorem classify_spec {n : ℕ} (tt g : TTa n) (neg : List (Fin n))
    (h : classifyAux tt [] (List.finRange n) = some (g, neg)) :
    neg.Nodup ∧ ∀ x, g x = tt (flipAll neg x) := by
  obtain ⟨ds, ha, hs, hg⟩ :=
    classifyAux_spec (List.finRange n) tt [] g neg (List.nodup_finRange n) h
  simp only [List.nil_append] at ha
  subst ha
  exact ⟨hs.nodup (List.nodup_finRange n), hg⟩

theorem cofactor0_flip_ne {n : ℕ} (f : TTa n) (i j : Fin n) (hij : j ≠ i)
    (x : Fin n → Bool) :
    cofactor0 (flip_inplace f j) i x
      = cofactor0 f i (Function.update x j (!x j)) := by
  simp only [cofactor0, flip_inplace]
  rw [Function.update_noteq hij, Function.update_comm (Ne.symm hij)]

theorem cofactor1_flip_ne {n : ℕ} (f : TTa n) (i j : Fin n) (hij : j ≠ i)
    (x : Fin n → Bool) :
    cofactor1 (flip_inplace f j) i x
      = cofactor1 f i (Function.update x j (!x j)) := by
  simp only [cofactor1, flip_inplace]
  rw [Function.update_noteq hij, Function.update_comm (Ne.symm hij)]

theorem indep_flip {n : ℕ} (f : TTa n) (i j : Fin n) (hij : j ≠ i)
    (h : cofactor0 f i = cofactor1 f i) :
    cofactor0 (flip_inplace f j) i = cofactor1 (flip_inplace f j) i := by
  funext x
  rw [cofactor0_flip_ne f i j hij x, cofactor1_flip_ne f i j hij x, h]

theorem classify_indep_not_mem {n : ℕ} :
    ∀ (rest : List (Fin n)) (t : TTa n) (acc : List (Fin n))
      (g : TTa n) (neg : List (Fin n)) (i : Fin n),
      cofactor0 t i = cofactor1 t i → i ∉ acc →
      classifyAux t acc rest = some (g, neg) → i ∉ neg := by
  intro rest
  induction rest with
  | nil =>
    intro t acc g neg i _ hacc h
    simp only [classifyAux, Option.some.injEq, Prod.mk.injEq] at h
    rw [← h.2]
    exact hacc
  | cons j rest ih =>
    intro t acc g neg i hind hacc h
    simp only [classifyAux] at h
    split_ifs at h with h1 h2 h3
    · exact ih t acc g neg i hind hacc h
    · by_cases hji : j = i
      · subst hji
        exact absurd hind h1
      · refine ih (flip_inplace t j) (acc ++ [j]) g neg i
          (indep_flip t i j hji hind) ?_ h
        simp only [List.mem_append, List.mem_singleton]
        rintro (hmem | hmem)
        · exact hacc hmem
        · exact hji hmem.symm
    · exact ih t acc g neg i hind hacc h

/-! ### Properties of the polarity back-mapping -/

theorem backStep_spec {n : ℕ} (sol : List ℤ) (v : Fin n)
    (hlen : sol.length = n + 1) :
    (backStep n sol v).length = n + 1 ∧
    (backStep n sol v).getD v.val 0 = -(sol.getD v.val 0) ∧
    (backStep n sol v).getD n 0 = sol.getD n 0 - sol.getD v.val 0 ∧
    ∀ j : ℕ, j ≠ v.val → j ≠ n → (backStep n sol v).getD j 0 = sol.getD j 0 := by
  have hvn : v.val ≠ n := by omega
  have hvlt : v.val < sol.length := by omega
  have hnlt : n < (sol.set v.val (-(sol.getD v.val 0))).length := by
    simp [List.length_set, hlen]
  refine ⟨?_, ?_, ?_, ?_⟩
  · simp [backStep, List.length_set, hlen]
  · rw [backStep, getD_set_ne _ _ _ _ (Ne.symm hvn), getD_set_self _ _ _ hvlt]
  · rw [backStep, getD_set_self _ _ _ hnlt,
      getD_set_ne _ _ _ _ hvn, getD_set_self _ _ _ hvlt]
    ring
  · intro j hjv hjn
    rw [backStep, getD_set_ne _ _ _ _ (Ne.symm hjn), getD_set_ne _ _ _ _ (Ne.symm hjv)]

theorem backMap_spec {n : ℕ} :
    ∀ (neg : List (Fin n)) (sol : List ℤ), sol.length = n + 1 → neg.Nodup →
      (backMap n sol neg).length = n + 1 ∧
      (∀ i : Fin n, i ∈ neg →
        (backMap n sol neg).getD i.val 0 = -(sol.getD i.val 0)) ∧
      (∀ i : Fin n, i ∉ neg →
        (backMap n sol neg).getD i.val 0 = sol.getD i.val 0) ∧
      (backMap n sol neg).getD n 0 =
        sol.getD n 0 - (neg.map (fun i => sol.getD i.val 0)).sum := by
  intro neg
  induction neg with
  | nil =>
    intro sol hlen _
    exact ⟨hlen, by simp, fun i _ => rfl, by simp [backMap]⟩
  | cons v vs ih =>
    intro sol hlen hnd
    have hv : v ∉ vs := (List.nodup_cons.mp hnd).1
    have hnd' : vs.Nodup := (List.nodup_cons.mp hnd).2
    obtain ⟨hl, hsv, hsn, hso⟩ := backStep_spec sol v hlen
    obtain ⟨ihl, ihmem, ihnot, ihn⟩ := ih (backStep n sol v) hl hnd'
    have hA : backMap n sol (v :: vs) = backMap n (backStep n sol v) vs := rfl
    rw [hA]
    refine ⟨ihl, ?_, ?_, ?_⟩
    · intro i hi
      rcases List.mem_cons.mp hi with hiv | hivs
      · subst hiv
        rw [ihnot i hv, hsv]
      · have hine : i ≠ v := fun hh => hv (hh ▸ hivs)
        rw [ihmem i hivs,
          hso i.val (fun hh => hine (Fin.ext hh)) (by omega)]
    · intro i hi
      have hiv : i ≠ v := fun hh => hi (hh ▸ List.mem_cons_self v vs)
      have hivs : i ∉ vs := fun hh => hi (List.mem_cons_of_mem v hh)
      rw [ihnot i hivs, hso i.val (fun hh => hiv (Fin.ext hh)) (by omega)]
    · rw [ihn, hsn]
      have hmapeq : vs.map (fun i => (backStep n sol v).getD i.val 0)
          = vs.map (fun i => sol.getD i.val 0) := by
        apply List.map_congr_left
        intro a ha
        have hav : a ≠ v := fun hh => hv (hh ▸ ha)
        exact hso a.val (fun hh => hav (Fin.ext hh)) (by omega)
      rw [hmapeq, List.map_cons, List.sum_cons]
      ring

/-! ### Soundness of the constraint system -/

theorem sound_core {n : ℕ} (g : TTa n) (sol : List ℤ)
    (hlen : sol.length = n + 1)
    (hnn : ∀ v ∈ sol, 0 ≤ v)
    (hsat : ∀ c ∈ genCons (isop g) (isop (ttNot g)), c.satB sol = true)
    (x : Fin n → Bool) :
    g x = true ↔
      sol.getD n 0 ≤ ∑ i : Fin n, sol.getD i.val 0 * (if x i then 1 else 0) := by
  have hW : ∀ i : Fin n, 0 ≤ sol.getD i.val 0 := by
    intro i
    exact hnn _ (getD_mem_of_lt sol i.val (by have := i.isLt; omega))
  have hsum : (∑ i : Fin n, sol.getD i.val 0 * (if x i then 1 else 0))
      = ∑ i ∈ Finset.univ.filter (fun i => x i = true), sol.getD i.val 0 := by
    rw [Finset.sum_filter]
    apply Finset.sum_congr rfl
    intro i _
    by_cases h : x i <;> simp [h]
  rw [hsum]
  constructor
  · intro hx
    obtain ⟨c, hc, hcov⟩ := isop_complete g x hx
    have hs := hsat (onCon c) (List.mem_append_left _ (List.mem_map_of_mem onCon hc))
    have hs' : (0 : ℤ) ≤
        (((List.finRange n).filter (fun i => c.mask i && c.bits i)).map
          (fun i => sol.getD i.val 0)).sum - sol.getD n 0 := by
      simpa [LinCon.satB, onCon, LinCon.lhs] using hs
    rw [sum_filter_finRange] at hs'
    have hsub : Finset.univ.filter (fun i => (c.mask i && c.bits i) = true)
        ⊆ Finset.univ.filter (fun i => x i = true) := by
      intro i hi
      simp only [Finset.mem_filter, Finset.mem_univ, true_and,
        Bool.and_eq_true] at hi ⊢
      rw [hcov i hi.1]
      exact hi.2
    have hle := Finset.sum_le_sum_of_subset_of_nonneg hsub
      (fun i _ _ => hW i)
    linarith
  · intro hge
    by_contra hx
    have hx0 : g x = false := by
      revert hx
      cases g x <;> simp
    have hnot : ttNot g x = true := by simp [ttNot, hx0]
    obtain ⟨c, hc, hcov⟩ := isop_complete (ttNot g) x hnot
    have hs := hsat (offCon c)
      (List.mem_append_right _ (List.mem_map_of_mem offCon hc))
    have hs' :
        (((List.finRange n).filter
            (fun i => !c.mask i || (c.mask i && c.bits i))).map
          (fun i => sol.getD i.val 0)).sum - sol.getD n 0 ≤ -1 := by
      simpa [LinCon.satB, offCon, LinCon.lhs] using hs
    rw [sum_filter_finRange] at hs'
    have hsub : Finset.univ.filter (fun i => x i = true)
        ⊆ Finset.univ.filter
            (fun i => (!c.mask i || (c.mask i && c.bits i)) = true) := by
      intro i hi
      simp only [Finset.mem_filter, Finset.mem_univ, true_and,
        Bool.or_eq_true, Bool.and_eq_true, Bool.not_eq_true'] at hi ⊢
      cases hm : c.mask i
      · exact Or.inl rfl
      · refine Or.inr ⟨rfl, ?_⟩
        rw [← hcov i hm]
        exact hi
    have hle := Finset.sum_le_sum_of_subset_of_nonneg hsub
      (fun i _ _ => hW i)
    linarith

/-! ### Inversion of the run on its branches -/

theorem run_ret_inv {n : ℕ} (env : Env n) (tt : TTa n) (plf0 : Option (List ℤ))
    (h : (is_threshold env tt plf0).ret = true) :
    ∃ g neg sol,
      classifyAux tt [] (List.finRange n) = some (g, neg) ∧
      env.solve (genCons (isop g) (isop (ttNot g))) = some sol ∧
      (∀ v : List ℤ, is_threshold env tt (some v) =
        { ret := true, nullDeref := false, ttFinal := tt,
          plfFinal := some (backMap n sol neg),
          rowLive := false, colnoLive := false, lpLive := false }) ∧
      is_threshold env tt none =
        { ret := true, nullDeref := true, ttFinal := tt, plfFinal := none,
          rowLive := true, colnoLive := true, lpLive := true } := by
  unfold is_threshold at h
  rcases hc : classifyAux tt [] (List.finRange n) with _ | ⟨g, neg⟩ <;>
    rw [hc] at h
  · simp at h
  · simp only at h
    split_ifs at h with hA hB hC
    rcases hs : env.solve (genCons (isop g) (isop (ttNot g))) with _ | sol <;>
      rw [hs] at h
    · simp at h
    · refine ⟨g, neg, sol, rfl, hs, ?_, ?_⟩
      · intro v
        unfold is_threshold
        rw [hc]
        simp only
        rw [if_neg hA, if_neg hB, if_neg hC, hs]
      · unfold is_threshold
        rw [hc]
        simp only
        rw [if_neg hA, if_neg hB, if_neg hC, hs]

theorem solverOk_checked (n : ℕ) (cand : List ℤ) :
    SolverOk n (checkedSolver n cand) := by
  intro cons sol h
  unfold checkedSolver at h
  by_cases hcond : cand.length = n + 1 ∧ (∀ v ∈ cand, 0 ≤ v) ∧
      ∀ c ∈ cons, c.satB cand = true
  · rw [if_pos hcond] at h
    injection h with h'
    subst h'
    exact hcond
  · rw [if_neg hcond] at h
    exact Option.noConfusion h

theorem sum_map_neg {n : ℕ} (l : List (Fin n)) (f : Fin n → ℤ) :
    (l.map (fun i => -(f i))).sum = -((l.map f).sum) := by
  induction l with
  | nil => simp
  | cons a l ih => simp [ih]; ring

theorem sum_ite_mem_list {n : ℕ} (neg : List (Fin n)) (hnd : neg.Nodup)
    (w : Fin n → ℤ) :
    (∑ i : Fin n, if i ∈ neg then w i else 0)
      = (neg.map w).sum := by
  rw [← List.sum_toFinset w hnd, ← Finset.sum_filter]
  congr 1
  ext i
  simp [List.mem_toFinset]

/-! ### The claims -/

/-- C1: soundness of the result.  For every completely specified truth
table `tt` over `n` variables, whenever is_threshold returns true with
linear form `lf = [w_1, ..., w_n, T]` (written through a non-null `plf`),
then for every one of the 2^n input assignments `x`, `tt` evaluates to 1
on `x` iff the weighted sum of the assignment reaches the threshold,
`T ≤ Σ w_i * x_i`.  The solving collaborator is assumed to honour its
contract (`SolverOk`). -/
theorem C1_is_threshold_sound {n : ℕ} (env : Env n) (tt : TTa n)
    (v lf : List ℤ)
    (hsolver : SolverOk n env.solve)
    (hret : (is_threshold env tt (some v)).ret = true)
    (hlf : (is_threshold env tt (some v)).plfFinal = some lf)
    (x : Fin n → Bool) :
    tt x = true ↔
      lf.getD n 0 ≤ ∑ i : Fin n, lf.getD i.val 0 * (if x i then 1 else 0) := by
  obtain ⟨g, neg, sol, hc, hs, hsucc, -⟩ := run_ret_inv env tt (some v) hret
  have hlf' : lf = backMap n sol neg := by
    rw [hsucc v] at hlf
    simpa using hlf.symm
  obtain ⟨hlen, hnn, hsat⟩ := hsolver _ sol hs
  obtain ⟨hnd, hflip⟩ := classify_spec tt g neg hc
  obtain ⟨hblen, hbmem, hbnot, hbn⟩ := backMap_spec neg sol hlen hnd
  have hW' : ∀ i : Fin n,
      lf.getD i.val 0
        = if i ∈ neg then -(sol.getD i.val 0) else sol.getD i.val 0 := by
    intro i
    by_cases hi : i ∈ neg
    · rw [hlf', if_pos hi, hbmem i hi]
    · rw [hlf', if_neg hi, hbnot i hi]
  have hpt : ∀ i : Fin n,
      sol.getD i.val 0 * (if flipAll neg x i then 1 else 0)
        = (if i ∈ neg then sol.getD i.val 0 else 0)
          + lf.getD i.val 0 * (if x i then 1 else 0) := by
    intro i
    rw [hW' i]
    by_cases hi : i ∈ neg <;> by_cases hx : x i <;>
      simp [flipAll, hi, hx]
  have hsumsplit :
      (∑ i : Fin n, sol.getD i.val 0 * (if flipAll neg x i then 1 else 0))
        = (∑ i : Fin n, if i ∈ neg then sol.getD i.val 0 else 0)
          + ∑ i : Fin n, lf.getD i.val 0 * (if x i then 1 else 0) := by
    rw [← Finset.sum_add_distrib]
    exact Finset.sum_congr rfl (fun i _ => hpt i)
  have hnegsum : (∑ i : Fin n, if i ∈ neg then sol.getD i.val 0 else 0)
      = (neg.map (fun i => sol.getD i.val 0)).sum :=
    sum_ite_mem_list neg hnd _
  have hTn : lf.getD n 0
      = sol.getD n 0 - (neg.map (fun i => sol.getD i.val 0)).sum := by
    rw [hlf', hbn]
  have h1 : (tt x = true) ↔ (g (flipAll neg x) = true) := by
    rw [hflip (flipAll neg x), flipAll_flipAll]
  rw [h1, sound_core g sol hlen hnn hsat (flipAll neg x), hsumsplit, hnegsum,
    hTn]
  constructor <;> intro h' <;> linarith

/-- Witness for C1 at the 2-input AND with the checked solver returning
the linear form [1, 1, 2], evaluated on the all-ones assignment. -/
theorem C1_witness :
    SolverOk 2 envAnd.solve ∧
    (is_threshold envAnd and2 (some [])).ret = true ∧
    (is_threshold envAnd and2 (some [])).plfFinal = some [1, 1, 2] ∧
    (and2 (fun _ => true) = true ↔
      ([1, 1, 2] : List ℤ).getD 2 0 ≤
        ∑ i : Fin 2, ([1, 1, 2] : List ℤ).getD i.val 0 *
          (if (fun _ : Fin 2 => true) i then 1 else 0)) :=
  ⟨solverOk_checked 2 [1, 1, 2], by decide, by decide,
    C1_is_threshold_sound envAnd and2 [] [1, 1, 2]
      (solverOk_checked 2 [1, 1, 2]) (by decide) (by decide)
      (fun _ => true)⟩

/-- C2: binate short-circuit.  If, while scanning the variables in order,
the classifier reaches a variable `i` whose cofactors on the current
working copy satisfy the three binateness disequalities, then
is_threshold returns false with the caller's vector untouched and no
solver resources ever allocated, and the outcome is the same for every
collaborator environment — the solver is never consulted. -/
theorem C2_binate_short_circuit {n : ℕ} (tt : TTa n)
    (pre post : List (Fin n)) (i : Fin n) (g : TTa n) (acc : List (Fin n))
    (hsplit : List.finRange n = pre ++ i :: post)
    (hpre : classifyAux tt [] pre = some (g, acc))
    (h1 : cofactor0 g i ≠ cofactor1 g i)
    (h2 : cofactor0 g i ≠ ttOr (cofactor0 g i) (cofactor1 g i))
    (h3 : cofactor1 g i ≠ ttOr (cofactor0 g i) (cofactor1 g i)) :
    ∀ (env : Env n) (plf0 : Option (List ℤ)),
      is_threshold env tt plf0 =
        { ret := false, nullDeref := false, ttFinal := tt, plfFinal := plf0,
          rowLive := false, colnoLive := false, lpLive := false } := by
  have hnone : classifyAux tt [] (List.finRange n) = none := by
    rw [hsplit, classifyAux_append, hpre]
    show classifyAux g acc (i :: post) = none
    simp only [classifyAux]
    rw [if_neg h1, if_neg h2, if_pos h3]
  intro env plf0
  unfold is_threshold
  rw [hnone]

/-- Witness for C2: 2-input XOR is rejected at variable 0 with the
working copy still equal to the input, for an arbitrary environment. -/
theorem C2_witness :
    List.finRange 2 = [] ++ (0 : Fin 2) :: [1] ∧
    classifyAux xor2 [] [] = some (xor2, []) ∧
    cofactor0 xor2 0 ≠ cofactor1 xor2 0 ∧
    cofactor0 xor2 0 ≠ ttOr (cofactor0 xor2 0) (cofactor1 xor2 0) ∧
    cofactor1 xor2 0 ≠ ttOr (cofactor0 xor2 0) (cofactor1 xor2 0) ∧
    is_threshold envAnd xor2 (some [5]) =
      { ret := false, nullDeref := false, ttFinal := xor2,
        plfFinal := some [5],
        rowLive := false, colnoLive := false, lpLive := false } :=
  ⟨by decide, by decide, by decide, by decide, by decide,
    C2_binate_short_circuit xor2 [] [1] 0 xor2 [] (by decide) (by decide)
      (by decide) (by decide) (by decide) envAnd (some [5])⟩

/-- C3: ON-set constraint translation.  The registered constraint sequence
holds exactly one constraint per ON-set cube (one each, in order, at the
head of the sequence), and for each such cube that constraint is satisfied
by a solution vector exactly when the sum of the weights of the variables
required-true in the cube, minus the threshold, is at least 0; variables
absent from the cube or required-false contribute no term. -/
theorem C3_on_translation {n : ℕ} (f : TTa n) (nf : List (Cube n))
    (sol : List ℤ) :
    ((genCons (isop f) nf).length = (isop f).length + nf.length) ∧
    ((genCons (isop f) nf).take (isop f).length = (isop f).map onCon) ∧
    ∀ c ∈ isop f, ((onCon c).satB sol = true ↔
      0 ≤ (∑ i ∈ Finset.univ.filter
            (fun i => c.mask i = true ∧ c.bits i = true),
            sol.getD i.val 0) - sol.getD n 0) := by
  refine ⟨by simp [genCons], ?_, ?_⟩
  · rw [genCons, ← List.length_map (isop f) onCon, List.take_left]
  · intro c _
    have hfil : Finset.univ.filter (fun i : Fin n => (c.mask i && c.bits i) = true)
        = Finset.univ.filter (fun i => c.mask i = true ∧ c.bits i = true) :=
      Finset.filter_congr (fun i _ => by simp [Bool.and_eq_true])
    have hl : (onCon c).lhs sol =
        (∑ i ∈ Finset.univ.filter
            (fun i => c.mask i = true ∧ c.bits i = true),
          sol.getD i.val 0) - sol.getD n 0 := by
      show (((List.finRange n).filter (fun i => c.mask i && c.bits i)).map
          (fun i => sol.getD i.val 0)).sum - sol.getD n 0 = _
      rw [sum_filter_finRange, hfil]
    show (if true = true then decide ((0 : ℤ) ≤ (onCon c).lhs sol)
        else decide ((onCon c).lhs sol ≤ 0)) = true ↔ _
    rw [if_pos rfl, decide_eq_true_iff, hl]

/-- Witness for C3 at the single ON-set cube of AND2 and the solution
vector [1, 1, 2]. -/
theorem C3_witness :
    (onCon cubeAnd).satB [1, 1, 2] = true ↔
      0 ≤ (∑ i ∈ Finset.univ.filter
            (fun i : Fin 2 => cubeAnd.mask i = true ∧ cubeAnd.bits i = true),
            ([1, 1, 2] : List ℤ).getD i.val 0) -
          ([1, 1, 2] : List ℤ).getD 2 0 :=
  (C3_on_translation and2 [] [1, 1, 2]).2.2 cubeAnd (List.Mem.head _)

/-- C4: OFF-set constraint translation.  The registered constraint
sequence holds exactly one constraint per OFF-set cube (one each, in
order, following the ON-set constraints), and for each such cube that
constraint is satisfied by a solution vector exactly when the sum of the
weights of the variables absent from the cube or required-true in it,
minus the threshold, is at most -1; only variables required-false in the
off-cube are excluded from the sum. -/
theorem C4_off_translation {n : ℕ} (fc : List (Cube n)) (g : TTa n)
    (sol : List ℤ) :
    ((genCons fc (isop g)).length = fc.length + (isop g).length) ∧
    ((genCons fc (isop g)).drop fc.length = (isop g).map offCon) ∧
    ∀ c ∈ isop g, ((offCon c).satB sol = true ↔
      (∑ i ∈ Finset.univ.filter
          (fun i => c.mask i = false ∨ (c.mask i = true ∧ c.bits i = true)),
          sol.getD i.val 0) - sol.getD n 0 ≤ -1) := by
  refine ⟨by simp [genCons], ?_, ?_⟩
  · rw [genCons, ← List.length_map fc onCon, List.drop_left]
  · intro c _
    have hfil : Finset.univ.filter
          (fun i : Fin n => (!c.mask i || (c.mask i && c.bits i)) = true)
        = Finset.univ.filter
            (fun i => c.mask i = false ∨ (c.mask i = true ∧ c.bits i = true)) :=
      Finset.filter_congr (fun i _ => by
        simp [Bool.or_eq_true, Bool.and_eq_true, Bool.not_eq_true'])
    have hl : (offCon c).lhs sol =
        (∑ i ∈ Finset.univ.filter
            (fun i => c.mask i = false ∨ (c.mask i = true ∧ c.bits i = true)),
          sol.getD i.val 0) - sol.getD n 0 := by
      show (((List.finRange n).filter
            (fun i => !c.mask i || (c.mask i && c.bits i))).map
          (fun i => sol.getD i.val 0)).sum - sol.getD n 0 = _
      rw [sum_filter_finRange, hfil]
    show (if false = true then decide ((-1 : ℤ) ≤ (offCon c).lhs sol)
        else decide ((offCon c).lhs sol ≤ -1)) = true ↔ _
    rw [if_neg (by simp), decide_eq_true_iff, hl]

/-- Witness for C4 at the all-false OFF-set cube of AND2 and the solution
vector [1, 1, 2]. -/
theorem C4_witness :
    (offCon cubeOffAnd).satB [1, 1, 2] = true ↔
      (∑ i ∈ Finset.univ.filter
          (fun i : Fin 2 => cubeOffAnd.mask i = false ∨
            (cubeOffAnd.mask i = true ∧ cubeOffAnd.bits i = true)),
          ([1, 1, 2] : List ℤ).getD i.val 0) -
        ([1, 1, 2] : List ℤ).getD 2 0 ≤ -1 :=
  (C4_off_translation [] (ttNot and2) [1, 1, 2]).2.2 cubeOffAnd (List.Mem.head _)

/-- C5: polarity back-mapping.  For a solved vector of length n+1 and a
duplicate-free record of negative-unate variables, the back-mapped linear
form negates exactly the weights of the recorded variables, keeps every
other weight unchanged, and its threshold equals the solved threshold
plus the sum of the (negated) final weights of the recorded variables. -/
theorem C5_polarity_backmap {n : ℕ} (sol : List ℤ) (neg : List (Fin n))
    (hlen : sol.length = n + 1) (hnd : neg.Nodup) :
    (∀ i : Fin n, i ∈ neg →
      (backMap n sol neg).getD i.val 0 = -(sol.getD i.val 0)) ∧
    (∀ i : Fin n, i ∉ neg →
      (backMap n sol neg).getD i.val 0 = sol.getD i.val 0) ∧
    (backMap n sol neg).getD n 0
      = sol.getD n 0
        + (neg.map (fun i => (backMap n sol neg).getD i.val 0)).sum := by
  obtain ⟨hblen, hbmem, hbnot, hbn⟩ := backMap_spec neg sol hlen hnd
  refine ⟨hbmem, hbnot, ?_⟩
  have hmap : neg.map (fun i => (backMap n sol neg).getD i.val 0)
      = neg.map (fun i => -(sol.getD i.val 0)) :=
    List.map_congr_left (fun i hi => hbmem i hi)
  rw [hmap, hbn, sum_map_neg]
  ring

/-- Witness for C5 with solved vector [3, 5, 7] and negative-unate record
[1] over two variables: the final form is [3, -5, 2]. -/
theorem C5_witness :
    (backMap 2 [3, 5, 7] [1]).getD 1 0 = -(([3, 5, 7] : List ℤ).getD 1 0) ∧
    (backMap 2 [3, 5, 7] [1]).getD 0 0 = ([3, 5, 7] : List ℤ).getD 0 0 ∧
    (backMap 2 [3, 5, 7] [1]).getD 2 0 = ([3, 5, 7] : List ℤ).getD 2 0 +
      (([1] : List (Fin 2)).map
        (fun i => (backMap 2 [3, 5, 7] [1]).getD i.val 0)).sum :=
  ⟨(C5_polarity_backmap [3, 5, 7] [1] (by decide) (by decide)).1 1 (by decide),
   (C5_polarity_backmap [3, 5, 7] [1] (by decide) (by decide)).2.1 0 (by decide),
   (C5_polarity_backmap [3, 5, 7] [1] (by decide) (by decide)).2.2⟩

/-- C6 counterexample: the function proj0 is functionally independent of
variable 1 (its two cofactors in that variable coincide), yet with a
collaborator solver that honours its contract (it returns only verified
feasible nonnegative solutions, here the suboptimal feasible point
[2, 1, 2]), is_threshold returns true with a linear form whose weight for
variable 1 is 1, not 0.  Nothing in the formulation constrains the
don't-care weight to 0. -/
theorem C6_counterexample :
    SolverOk 2 envProj.solve ∧
    cofactor0 proj0 1 = cofactor1 proj0 1 ∧
    (is_threshold envProj proj0 (some [])).ret = true ∧
    (is_threshold envProj proj0 (some [])).plfFinal = some [2, 1, 2] ∧
    ([2, 1, 2] : List ℤ).getD 1 0 ≠ 0 :=
  ⟨solverOk_checked 2 [2, 1, 2], by decide, by decide, by decide, by decide⟩

/-- C6 amended: for every truth table functionally independent of a
variable `i` for which is_threshold returns true, the variable is never
flipped, and the returned linear form assigns to `i` exactly the weight
of the solver's returned solution — which the minimization objective is
expected to drive to 0 but which the formulation never constrains to 0. -/
theorem C6_dontcare_weight {n : ℕ} (env : Env n) (tt : TTa n) (v : List ℤ)
    (i : Fin n) (g : TTa n) (neg : List (Fin n)) (sol : List ℤ)
    (hsolver : SolverOk n env.solve)
    (hind : cofactor0 tt i = cofactor1 tt i)
    (hret : (is_threshold env tt (some v)).ret = true)
    (hc : classifyAux tt [] (List.finRange n) = some (g, neg))
    (hs : env.solve (genCons (isop g) (isop (ttNot g))) = some sol) :
    (is_threshold env tt (some v)).plfFinal = some (backMap n sol neg) ∧
    (backMap n sol neg).getD i.val 0 = sol.getD i.val 0 := by
  obtain ⟨g', neg', sol', hc', hs', hsucc, -⟩ := run_ret_inv env tt (some v) hret
  rw [hc] at hc'
  injection hc' with hpair
  injection hpair with hg hneg
  subst hg
  subst hneg
  rw [hs] at hs'
  injection hs' with hsol
  subst hsol
  obtain ⟨hlen, hnn, hsat⟩ := hsolver _ sol hs
  obtain ⟨hnd, -⟩ := classify_spec tt g neg hc
  have hni : i ∉ neg :=
    classify_indep_not_mem (List.finRange n) tt [] g neg i hind
      (by simp) hc
  obtain ⟨-, -, hbnot, -⟩ := backMap_spec neg sol hlen hnd
  exact ⟨by rw [hsucc v], hbnot i hni⟩

/-- Witness for the amended C6 at proj0, variable 1, with the checked
solver returning [2, 1, 2]. -/
theorem C6_witness :
    (is_threshold envProj proj0 (some [])).plfFinal
      = some (backMap 2 [2, 1, 2] []) ∧
    (backMap 2 [2, 1, 2] []).getD 1 0 = ([2, 1, 2] : List ℤ).getD 1 0 :=
  C6_dontcare_weight envProj proj0 [] 1 proj0 [] [2, 1, 2]
    (solverOk_checked 2 [2, 1, 2]) (by decide) (by decide) (by decide)
    (by decide)

/-- C7: failure atomicity.  Whenever is_threshold returns false — on the
binate short-circuit, any allocation failure, any constraint or objective
registration failure, or an infeasible solve — the caller's linear-form
vector is exactly what it was before the call: no partial or invalid
linear form is ever produced on any failure path. -/
theorem C7_failure_atomic {n : ℕ} (env : Env n) (tt : TTa n)
    (plf0 : Option (List ℤ))
    (h : (is_threshold env tt plf0).ret = false) :
    (is_threshold env tt plf0).plfFinal = plf0 := by
  have hcases : (is_threshold env tt plf0).plfFinal = plf0 ∨
      (is_threshold env tt plf0).ret = true := by
    unfold is_threshold
    rcases hc : classifyAux tt [] (List.finRange n) with _ | ⟨g, neg⟩
    · exact Or.inl rfl
    · simp only
      split_ifs with hA hB hC
      · exact Or.inl rfl
      · exact Or.inl rfl
      · exact Or.inl rfl
      · rcases hs : env.solve (genCons (isop g) (isop (ttNot g))) with _ | sol
        · exact Or.inl rfl
        · rcases plf0 with _ | v
          · exact Or.inr rfl
          · exact Or.inr rfl
  rcases hcases with hp | hp
  · exact hp
  · rw [h] at hp
    exact Bool.noConfusion hp

/-- Witness for C7: XOR2 fails (binate) and the pointed-to vector keeps
its prior contents [5]. -/
theorem C7_witness :
    (is_threshold envAnd xor2 (some [5])).plfFinal = some [5] :=
  C7_failure_atomic envAnd xor2 (some [5]) (by decide)

/-- C8: evaluating the code at the failing input.  With the 2-input AND
(which passes classification) and a collaborator whose first
add_constraintex call fails, is_threshold returns false while the row
buffer, the column buffer and the LP model are all still allocated at
exit: the early returns at the registration-failure paths (source lines
143-146, 163-166, 177-180) perform no free or delete_lp, contradicting
the claim that every exit path reached after allocation releases them. -/
theorem C8_leak_on_add_failure :
    (is_threshold envFailAdd and2 (some [])).ret = false ∧
    (is_threshold envFailAdd and2 (some [])).rowLive = true ∧
    (is_threshold envFailAdd and2 (some [])).colnoLive = true ∧
    (is_threshold envFailAdd and2 (some [])).lpLive = true :=
  ⟨by decide, by decide, by decide, by decide⟩

/-- C9: input immutability.  For every call and every outcome, the
caller's truth table is unchanged when the call returns; the polarity
flips of the classifier touch only the local working copy. -/
theorem C9_input_unchanged {n : ℕ} (env : Env n) (tt : TTa n)
    (plf0 : Option (List ℤ)) :
    (is_threshold env tt plf0).ttFinal = tt := by
  unfold is_threshold
  rcases hc : classifyAux tt [] (List.finRange n) with _ | ⟨g, neg⟩
  · rfl
  · simp only
    split_ifs with hA hB hC
    · rfl
    · rfl
    · rfl
    · rcases hs : env.solve (genCons (isop g) (isop (ttNot g))) with _ | sol
      · rfl
      · rcases plf0 with _ | v <;> rfl

/-- C10: implicit precondition on plf.  If a call with a non-null plf
would succeed (the truth table is classified as a threshold function and
the solver returns a solution), then the same call made with the
defaulted null plf reaches the unconditional store through plf on the
success path and dereferences the null pointer; success is well-defined
only under plf being non-null. -/
theorem C10_null_plf_deref {n : ℕ} (env : Env n) (tt : TTa n) (v : List ℤ)
    (hret : (is_threshold env tt (some v)).ret = true) :
    (is_threshold env tt none).nullDeref = true := by
  obtain ⟨g, neg, sol, hc, hs, hsucc, hnone⟩ := run_ret_inv env tt (some v) hret
  rw [hnone]

/-- Witness for C10: AND2 with the checked solver succeeds through a
non-null plf, so the call with null plf writes through the null pointer. -/
theorem C10_witness :
    (is_threshold envAnd and2 none).nullDeref = true :=
  C10_null_plf_deref envAnd and2 [] (by decide)

end kitty
